import Mathlib

/-!
Verification of the entry-normalization pipeline of `apps/web/src/app/api/papers/route.ts`.

The route handler parses an Atom/XML feed into a dynamically typed tree and
normalizes each `entry` node into a `PaperSummary` record.  We embed the parsed
tree as the inductive `JValue` (objects, arrays, strings, numbers, booleans,
null) and translate the JavaScript functions `isArxivRawData` and
`transformEntryToPaperSummary`, together with the post-parse portion of `GET`,
as executable Lean functions.  JavaScript-specific behaviour is modelled
explicitly: truthiness, `typeof` checks, the first-match semantics of
`String.prototype.match` with the regex pattern slash-abs-slash followed by a
nonempty run of characters other than 'v', the first-occurrence semantics of
`String.prototype.replace` with a string pattern, and the global replacement of
runs of two or more whitespace characters by a single space.  Numbers are
modelled as integers (no claim depends on fractional values or NaN).
-/

/-- A dynamically typed value as produced by the XML parser (`fast-xml-parser`
with attributes kept under the at-underscore prefix). -/
inductive JValue where
  | null : JValue
  | bool (b : Bool) : JValue
  | num (n : Int) : JValue
  | str (s : String) : JValue
  | arr (elems : List JValue) : JValue
  | obj (fields : List (String × JValue)) : JValue

/-- The output record type of the entry normalizer (`PaperSummary` in the source). -/
structure PaperSummary where
  id : String
  title : String
  summary : String
  authors : List String
  published : String
  updated : String
  pdfLink : String
  categories : List String
deriving DecidableEq, Repr

/-- JavaScript truthiness of a value. -/
def truthy : JValue → Bool
  | JValue.null => false
  | JValue.bool b => b
  | JValue.num n => decide (n ≠ 0)
  | JValue.str s => decide (s ≠ "")
  | JValue.arr _ => true
  | JValue.obj _ => true

/-- Look a key up in an object's field list (first occurrence wins). -/
def lookupField : List (String × JValue) → String → Option JValue
  | [], _ => none
  | (k, v) :: rest, key => if k = key then some v else lookupField rest key

/-- Property access `x[key]`: `none` models JavaScript `undefined` (absent
field, or access on a non-object such as an array or an autoboxed primitive,
where none of the keys the normalizer reads is ever present). -/
def getField : JValue → String → Option JValue
  | JValue.obj fields, key => lookupField fields key
  | _, _ => none

/-- `typeof x === 'string' ? x : undefined` for a field access. -/
def strField (e : JValue) (key : String) : Option String :=
  match getField e key with
  | some (JValue.str s) => some s
  | _ => none

/-- The shared singular-or-array collapsing pattern
`Array.isArray(x) ? x : (x ? [x] : [])`. -/
def toSeq : Option JValue → List JValue
  | some (JValue.arr xs) => xs
  | some v => if truthy v then [v] else []
  | none => []

/-- Sequence-normalized view of an entry field. -/
def seqField (e : JValue) (key : String) : List JValue :=
  toSeq (getField e key)

/- ## Character-list primitives mirroring the JavaScript string operations -/

/-- Whether `pat` is a prefix of `l` (pattern argument first). -/
def startsWithL : List Char → List Char → Bool
  | [], _ => true
  | _ :: _, [] => false
  | p :: ps, c :: cs => p == c && startsWithL ps cs

/-- `String.prototype.includes` for a nonempty pattern. -/
def occursL (pat : List Char) : List Char → Bool
  | [] => startsWithL pat []
  | c :: cs => startsWithL pat (c :: cs) || occursL pat cs

/-- `String.prototype.replace` with a string pattern: replace the first
occurrence of `pat` by `rep`, or return the list unchanged. -/
def replaceFirst (pat rep : List Char) : List Char → List Char
  | [] => []
  | c :: cs =>
    if startsWithL pat (c :: cs) then rep ++ (c :: cs).drop pat.length
    else c :: replaceFirst pat rep cs

/-- The characters of the literal pattern slash-a-b-s-slash. -/
def absL : List Char := ['/', 'a', 'b', 's', '/']

/-- The characters of the replacement slash-p-d-f-slash. -/
def pdfL : List Char := ['/', 'p', 'd', 'f', '/']

/-- The characters of the scheme check pattern for plain HTTP. -/
def httpL : List Char := ['h', 't', 't', 'p', ':', '/', '/']

/-- The characters of the scheme check pattern for HTTPS. -/
def httpsL : List Char := ['h', 't', 't', 'p', 's', ':', '/', '/']

/-- The characters of the appended extension dot-p-d-f. -/
def dotPdfL : List Char := ['.', 'p', 'd', 'f']

/-- One attempt of the regex engine at the current scan position: the pattern
slash-abs-slash followed by a greedy nonempty run of characters other than
'v'; returns the capture group. -/
def pdfCapture (l : List Char) : Option (List Char) :=
  if startsWithL absL l then
    match l.drop 5 with
    | [] => none
    | c :: cs => if c = 'v' then none else some (c :: cs.takeWhile (fun x => decide (x ≠ 'v')))
  else none

/-- `String.prototype.match` scanning left to right for the first position at
which the pattern matches, returning capture group 1 (models
`idUrl.match` against the abs-id pattern followed by `match?.[1]`). -/
def extractList : List Char → Option (List Char)
  | [] => none
  | c :: cs =>
    match pdfCapture (c :: cs) with
    | some r => some r
    | none => extractList cs

/-- The arXiv identifier extraction of the source (lines 86-88 of the route). -/
def extractArxivId (s : String) : Option String :=
  (extractList s.data).map String.mk

/-- JavaScript whitespace as far as the feed can contain it (the `trimValues`
parser option already strips exotic Unicode spacing). -/
def isWS (c : Char) : Bool :=
  c = ' ' || c = '\t' || c = '\n' || c = '\r'

/-- `String.prototype.trim` on a character list. -/
def trimL (l : List Char) : List Char :=
  ((l.dropWhile isWS).reverse.dropWhile isWS).reverse

/-- Emit a completed maximal whitespace run: a run of a single character is
kept verbatim (the regex needs at least two characters to match), a longer
run is replaced by one space. -/
def flushRun (f : Char) (n : Nat) : List Char :=
  if n ≤ 1 then [f] else [' ']

/-- Left-to-right scan for the global replacement of every run of two or more
whitespace characters by a single space; the state records the pending
whitespace run (its first character and its length so far). -/
def collapseGo : Option (Char × Nat) → List Char → List Char
  | none, [] => []
  | some (f, n), [] => flushRun f n
  | none, c :: cs => if isWS c then collapseGo (some (c, 1)) cs else c :: collapseGo none cs
  | some (f, n), c :: cs =>
    if isWS c then collapseGo (some (f, n + 1)) cs
    else flushRun f n ++ c :: collapseGo none cs

/-- Global replacement of every run of two or more whitespace characters by a
single space (the regex replace on lines 119-120 of the route); a lone
whitespace character is left unchanged. -/
def collapseWS (l : List Char) : List Char :=
  collapseGo none l

/-- `s.trim().replace(whitespace-run-regex, ' ')` on a string. -/
def normalizeText (s : String) : String :=
  String.mk (collapseWS (trimL s.data))

/- ## The entry normalizer -/

/-- The predicate of the `find` call on line 93-96: a non-null object whose
title attribute is present and strictly equals the string `pdf` and whose
href attribute is a string (possibly empty). -/
def isPdfLink : JValue → Bool
  | JValue.obj fields =>
    (match lookupField fields "@_title" with
     | some (JValue.str t) => decide (t = "pdf")
     | _ => false)
    &&
    (match lookupField fields "@_href" with
     | some (JValue.str _) => true
     | _ => false)
  | _ => false

/-- `pdfEntry?.['@_href'] ?? ''` for a found link. -/
def hrefOf (l : JValue) : String :=
  match getField l "@_href" with
  | some (JValue.str h) => h
  | _ => ""

/-- PDF link resolution (lines 91-104): href of the first matching link, else
the abs-to-pdf fallback guarded by the scheme check, else empty. -/
def pdfLinkOf (e : JValue) (idUrl : String) : String :=
  let fromLink : String :=
    match (seqField e "link").find? isPdfLink with
    | some l => hrefOf l
    | none => ""
  if fromLink = "" && occursL absL idUrl.data then
    let potential : List Char := replaceFirst absL pdfL idUrl.data ++ dotPdfL
    if startsWithL httpL potential || startsWithL httpsL potential then String.mk potential
    else fromLink
  else fromLink

/-- `auth && typeof auth.name === 'string' ? auth.name.trim() : null`. -/
def authorName (a : JValue) : Option String :=
  if truthy a then
    match getField a "name" with
    | some (JValue.str s) => some (String.mk (trimL s.data))
    | _ => none
  else none

/-- `cat && typeof cat['@_term'] === 'string' ? cat['@_term'] : null`. -/
def categoryTerm (c : JValue) : Option String :=
  if truthy c then
    match getField c "@_term" with
    | some (JValue.str s) => some s
    | _ => none
  else none

/-- The filter `name !== null && name.length > 0` fused with the unwrapping of
the non-null survivors. -/
def keepNonempty : Option String → Option String
  | some s => if s.length > 0 then some s else none
  | none => none

/-- Author extraction (lines 107-111). -/
def authorsOf (e : JValue) : List String :=
  ((seqField e "author").map authorName).filterMap keepNonempty

/-- Category extraction (lines 113-117). -/
def categoriesOf (e : JValue) : List String :=
  ((seqField e "category").map categoryTerm).filterMap keepNonempty

/-- Placeholder for a missing title (the source's fixed literal). -/
def titlePlaceholder : String := "タイトルなし"

/-- Placeholder for a missing summary (the source's fixed literal). -/
def summaryPlaceholder : String := "要約なし"

/-- Title normalization (line 119). -/
def titleOf (e : JValue) : String :=
  match strField e "title" with
  | some s => normalizeText s
  | none => titlePlaceholder

/-- Summary normalization (lines 120-121). -/
def summaryOf (e : JValue) : String :=
  match strField e "summary" with
  | some s => normalizeText s
  | none => summaryPlaceholder

/-- Timestamp passthrough for `published` (line 122). -/
def publishedOf (e : JValue) : String :=
  match strField e "published" with
  | some s => s
  | none => ""

/-- Timestamp passthrough for `updated` (line 123). -/
def updatedOf (e : JValue) : String :=
  match strField e "updated" with
  | some s => s
  | none => ""

/-- The record built on lines 125-134 once identity extraction has succeeded. -/
def mkSummary (e : JValue) (idUrl arxivId : String) : PaperSummary :=
  { id := arxivId
    title := titleOf e
    summary := summaryOf e
    authors := authorsOf e
    published := publishedOf e
    updated := updatedOf e
    pdfLink := pdfLinkOf e idUrl
    categories := categoriesOf e }

/-- The entry normalizer `transformEntryToPaperSummary` (lines 83-135). -/
def transformEntryToPaperSummary (entryItem : JValue) : Option PaperSummary :=
  if truthy entryItem then
    match strField entryItem "id" with
    | none => none
    | some idUrl =>
      match extractArxivId idUrl with
      | none => none
      | some arxivId =>
        if arxivId.length = 0 then none
        else some (mkSummary entryItem idUrl arxivId)
  else none

/- ## The collection normalizer and the post-parse portion of `GET` -/

/-- `.map(transformEntryToPaperSummary).filter(paper => paper !== null)`. -/
def papersOfEntries (l : List JValue) : List PaperSummary :=
  (l.map transformEntryToPaperSummary).reduceOption

/-- Outcome of the post-parse portion of the route handler. -/
inductive ApiOutcome where
  | ok (papers : List PaperSummary) : ApiOutcome
  | serverError : ApiOutcome
deriving DecidableEq, Repr

/-- The type guard `isArxivRawData` (lines 71-77): a non-null value of
JavaScript type object (which includes arrays). -/
def isArxivRawData : JValue → Bool
  | JValue.obj _ => true
  | JValue.arr _ => true
  | _ => false

/-- Lines 180-199 of `GET`: guard the parsed root, require a truthy `feed`,
sequence-normalize `feed.entry` and map the entry normalizer over it. -/
def handleParsedData (d : JValue) : ApiOutcome :=
  if isArxivRawData d then
    match getField d "feed" with
    | none => ApiOutcome.serverError
    | some feedv =>
      if truthy feedv then
        ApiOutcome.ok (papersOfEntries (toSeq (getField feedv "entry")))
      else ApiOutcome.serverError
  else ApiOutcome.serverError

/- ## Vocabulary for stating properties, and spec-side definitions compared
against the source-side ones -/

/-- The string view of a dynamic value: the string itself when the value is
a string, and nothing otherwise. -/
def strView : JValue → Option String
  | JValue.str s => some s
  | _ => none

/-- A character list neither starts nor ends with a whitespace character. -/
def noEdgeWS (l : List Char) : Bool :=
  (match l.head? with
   | some c => !(isWS c)
   | none => true)
  &&
  (match l.getLast? with
   | some c => !(isWS c)
   | none => true)

/-- A null or primitive root value, that is, anything that is not of
JavaScript type object. -/
def isPrimitiveOrNull : JValue → Bool
  | JValue.null => true
  | JValue.bool _ => true
  | JValue.num _ => true
  | JValue.str _ => true
  | _ => false

/-- Modelled from the spec: one author element as §4.2 step 3 words it — its
trimmed `name` when `name` is a string and nonempty after trimming, nothing
when the name is absent, non-string, or empty after trimming. -/
def authorPerSpec1 (a : JValue) : Option String :=
  match getField a "name" with
  | some (JValue.str s) =>
    if String.mk (trimL s.data) = "" then none else some (String.mk (trimL s.data))
  | _ => none

/-- Modelled from the spec: author extraction as §4.2 step 3 words it — map
each element of the sequence-normalized author field through
`authorPerSpec1`, dropping the rejected elements, order and duplicates
preserved. -/
def authorsPerSpec (e : JValue) : List String :=
  (seqField e "author").filterMap authorPerSpec1

/-- Modelled from the spec: one category element as §4.2 step 4 words it —
its term attribute when present as a nonempty string. -/
def categoryPerSpec1 (c : JValue) : Option String :=
  match getField c "@_term" with
  | some (JValue.str s) => if s = "" then none else some s
  | _ => none

/-- Modelled from the spec: category extraction as §4.2 step 4 words it — map
each element of the sequence-normalized category field through
`categoryPerSpec1`, dropping the rejected elements, order preserved. -/
def categoriesPerSpec (e : JValue) : List String :=
  (seqField e "category").filterMap categoryPerSpec1

/-- Modelled from the spec: the link-selection predicate as §4.2 step 2 words
it — title attribute equal to the literal `pdf` and href attribute a
non-empty string. -/
def isPdfLinkPerSpec : JValue → Bool
  | JValue.obj fields =>
    (match lookupField fields "@_title" with
     | some (JValue.str t) => decide (t = "pdf")
     | _ => false)
    &&
    (match lookupField fields "@_href" with
     | some (JValue.str h) => decide (h ≠ "")
     | _ => false)
  | _ => false

/- ## Concrete entries used to instantiate the theorems -/

/-- A well-formed versioned entry. -/
def entryVersioned : JValue :=
  JValue.obj [("id", JValue.str "http://arxiv.org/abs/2301.00001v2")]

/-- An entry whose id contains the abs marker followed by a character, but
where that character is 'v'. -/
def entryAbsV : JValue :=
  JValue.obj [("id", JValue.str "http://x/abs/v1")]

/-- An entry whose first pdf-titled link carries an empty href while a later
pdf-titled link carries a usable one. -/
def entryShadowedLink : JValue :=
  JValue.obj
    [ ("id", JValue.str "http://x/abs/1")
    , ("link", JValue.arr
        [ JValue.obj [("@_title", JValue.str "pdf"), ("@_href", JValue.str "")]
        , JValue.obj [("@_title", JValue.str "pdf"), ("@_href", JValue.str "zzz")] ]) ]

/-- An entry carrying a usable pdf-titled link. -/
def entryGoodLink : JValue :=
  JValue.obj
    [ ("id", JValue.str "http://x/abs/7")
    , ("link", JValue.arr
        [ JValue.obj [("@_title", JValue.str "pdf"), ("@_href", JValue.str "http://x/pdf/7v1.pdf")] ]) ]

/-- The spec's PDF-fallback example entry: an abs id and no link field. -/
def entryFallback : JValue :=
  JValue.obj [("id", JValue.str "http://example.org/abs/1234.5678")]

/-- An entry with whitespace-heavy title and summary. -/
def entryWhitespace : JValue :=
  JValue.obj
    [ ("id", JValue.str "http://x/abs/5")
    , ("title", JValue.str "  A   B ")
    , ("summary", JValue.str " S  T  ") ]

/-- An entry exercising author and category extraction. -/
def entryPeople : JValue :=
  JValue.obj
    [ ("id", JValue.str "http://x/abs/6")
    , ("author", JValue.arr
        [ JValue.obj [("name", JValue.str " C ")]
        , JValue.obj [("name", JValue.str "   ")]
        , JValue.obj []
        , JValue.null
        , JValue.obj [("name", JValue.str " C ")] ])
    , ("category", JValue.arr
        [ JValue.obj [("@_term", JValue.str "cs.AI")]
        , JValue.obj [("@_term", JValue.str "")]
        , JValue.obj [("@_term", JValue.num 3)]
        , JValue.obj [("@_term", JValue.str "cs.AI")] ]) ]

/- ## Helper lemmas: prefix and occurrence tests -/

theorem startsWithL_iff (p l : List Char) :
    startsWithL p l = true ↔ ∃ t, l = p ++ t := by
  induction p generalizing l with
  | nil => simp [startsWithL]
  | cons a ps ih =>
    cases l with
    | nil =>
      simp only [startsWithL]
      constructor
      · intro h
        exact absurd h (by simp)
      · rintro ⟨t, ht⟩
        exact absurd ht (by simp)
    | cons c cs =>
      simp only [startsWithL, Bool.and_eq_true, beq_iff_eq, ih]
      constructor
      · rintro ⟨rfl, t, rfl⟩
        exact ⟨t, rfl⟩
      · rintro ⟨t, ht⟩
        obtain ⟨h1, h2⟩ := List.cons_eq_cons.mp (by simpa using ht)
        exact ⟨h1.symm ▸ rfl, t, h2⟩

theorem startsWithL_self_append (p t : List Char) :
    startsWithL p (p ++ t) = true :=
  (startsWithL_iff p (p ++ t)).2 ⟨t, rfl⟩

theorem occursL_iff (p l : List Char) :
    occursL p l = true ↔ ∃ u w, l = u ++ p ++ w := by
  induction l with
  | nil =>
    simp only [occursL, startsWithL_iff]
    constructor
    · rintro ⟨t, ht⟩
      exact ⟨[], t, by simpa using ht⟩
    · rintro ⟨u, w, h⟩
      have h2 : u ++ (p ++ w) = [] := by rw [← List.append_assoc]; exact h.symm
      obtain ⟨hu, hpw⟩ := List.append_eq_nil.mp h2
      obtain ⟨hp, hw⟩ := List.append_eq_nil.mp hpw
      exact ⟨[], by simp [hp]⟩
  | cons c cs ih =>
    simp only [occursL, Bool.or_eq_true, startsWithL_iff, ih]
    constructor
    · rintro (⟨t, ht⟩ | ⟨u, w, hw⟩)
      · exact ⟨[], t, by simp [ht]⟩
      · exact ⟨c :: u, w, by simp [hw]⟩
    · rintro ⟨u, w, hw⟩
      cases u with
      | nil => exact Or.inl ⟨w, by simpa using hw⟩
      | cons x xs =>
        right
        refine ⟨xs, w, ?_⟩
        exact (List.cons_eq_cons.mp (by simpa using hw)).2

/- ## Helper lemmas: takeWhile -/

theorem takeWhile_append_of_all {p : Char → Bool} (l1 l2 : List Char)
    (h : ∀ x ∈ l1, p x = true) :
    (l1 ++ l2).takeWhile p = l1 ++ l2.takeWhile p := by
  induction l1 with
  | nil => simp
  | cons c cs ih =>
    have hc : p c = true := h c (by simp)
    simp [List.takeWhile_cons, hc, ih (fun x hx => h x (by simp [hx]))]

/- ## Helper lemmas: the identifier-extraction regex -/

theorem pdfCapture_nil : pdfCapture [] = none := by
  simp [pdfCapture, absL, startsWithL]

theorem drop_five_absL (t : List Char) : (absL ++ t).drop 5 = t := by
  simp [absL]

theorem pdfCapture_at_abs (d : Char) (rest : List Char) :
    pdfCapture (absL ++ d :: rest) =
      if d = 'v' then none
      else some (d :: rest.takeWhile (fun x => decide (x ≠ 'v'))) := by
  have h1 : startsWithL absL (absL ++ d :: rest) = true := startsWithL_self_append _ _
  have h2 := drop_five_absL (d :: rest)
  simp only [pdfCapture, h1, if_true, h2]

theorem pdfCapture_eq_some {l r : List Char} (h : pdfCapture l = some r) :
    ∃ d ds, l = absL ++ d :: ds ∧ d ≠ 'v' ∧
      r = d :: ds.takeWhile (fun x => decide (x ≠ 'v')) := by
  by_cases hs : startsWithL absL l = true
  · obtain ⟨t, rfl⟩ := (startsWithL_iff _ _).1 hs
    have h2 := drop_five_absL t
    simp only [pdfCapture, hs, if_true, h2] at h
    cases t with
    | nil => simp at h
    | cons d ds =>
      by_cases hd : d = 'v'
      · simp [hd] at h
      · simp only [hd, if_false, Option.some.injEq] at h
        exact ⟨d, ds, rfl, hd, h.symm⟩
  · simp [pdfCapture, hs] at h

theorem extractList_eq_of_capture {l r : List Char} (h : pdfCapture l = some r) :
    extractList l = some r := by
  cases l with
  | nil => rw [pdfCapture_nil] at h; exact absurd h (by simp)
  | cons c cs => simp only [extractList, h]

theorem extractList_append_no_early (p m : List Char)
    (h : ∀ i, i < p.length → pdfCapture ((p ++ m).drop i) = none) :
    extractList (p ++ m) = extractList m := by
  induction p with
  | nil => simp
  | cons c cs ih =>
    have h0 : pdfCapture (c :: (cs ++ m)) = none := by
      have hh := h 0 (by simp)
      simpa using hh
    show extractList (c :: (cs ++ m)) = extractList m
    simp only [extractList, h0]
    exact ih (fun i hi => by
      have hh := h (i + 1) (by simp; omega)
      simpa using hh)

theorem extractList_eq_none_iff (l : List Char) :
    extractList l = none ↔ ∀ i, i < l.length → pdfCapture (l.drop i) = none := by
  induction l with
  | nil => simp [extractList]
  | cons c cs ih =>
    constructor
    · intro h i hi
      cases hp : pdfCapture (c :: cs) with
      | some r =>
        simp only [extractList, hp] at h
        exact absurd h (by simp)
      | none =>
        simp only [extractList, hp] at h
        cases i with
        | zero => simpa using hp
        | succ j =>
          have := (ih.mp h) j (by simpa using hi)
          simpa using this
    · intro h
      have h0 : pdfCapture (c :: cs) = none := by simpa using h 0 (by simp)
      simp only [extractList, h0]
      exact ih.mpr (fun i hi => by
        have hh := h (i + 1) (by simp; omega)
        simpa using hh)

theorem extractList_eq_some {l r : List Char} (h : extractList l = some r) :
    ∃ u w, l = u ++ absL ++ r ++ w ∧ r ≠ [] ∧ ∀ c ∈ r, c ≠ 'v' := by
  induction l with
  | nil => simp [extractList] at h
  | cons c cs ih =>
    cases hp : pdfCapture (c :: cs) with
    | some q =>
      simp only [extractList, hp, Option.some.injEq] at h
      obtain rfl : q = r := h
      obtain ⟨d, ds, heq, hd, hr⟩ := pdfCapture_eq_some hp
      refine ⟨[], ds.dropWhile (fun x => decide (x ≠ 'v')), ?_, by simp [hr], ?_⟩
      · rw [heq, hr]
        simp only [List.nil_append, List.append_assoc, List.cons_append,
          List.takeWhile_append_dropWhile]
      · intro x hx
        rw [hr] at hx
        rcases List.mem_cons.mp hx with rfl | hx2
        · exact hd
        · have := List.mem_takeWhile_imp hx2
          simpa using this
    | none =>
      simp only [extractList, hp] at h
      obtain ⟨u, w, rfl, hr, hvv⟩ := ih h
      exact ⟨c :: u, w, by simp, hr, hvv⟩

theorem occursL_absL_of_extract {l r : List Char} (h : extractList l = some r) :
    occursL absL l = true := by
  obtain ⟨u, w, rfl, -, -⟩ := extractList_eq_some h
  exact (occursL_iff _ _).2 ⟨u, r ++ w, by simp⟩

theorem extractList_versioned (p ID tl : List Char) (hID : ID ≠ [])
    (hv : ∀ c ∈ ID, c ≠ 'v') (htl : tl = [] ∨ ∃ t2, tl = 'v' :: t2)
    (hearly : ∀ i, i < p.length → pdfCapture ((p ++ (absL ++ ID ++ tl)).drop i) = none) :
    extractList (p ++ (absL ++ ID ++ tl)) = some ID := by
  rw [extractList_append_no_early p _ hearly]
  cases ID with
  | nil => exact absurd rfl hID
  | cons d ds =>
    have hd : d ≠ 'v' := hv d (by simp)
    have htk : (ds ++ tl).takeWhile (fun x => decide (x ≠ 'v')) = ds := by
      rw [takeWhile_append_of_all ds tl
        (fun x hx => by simpa using hv x (by simp [hx]))]
      rcases htl with rfl | ⟨t2, rfl⟩
      · simp
      · simp [List.takeWhile_cons]
    have hcap : pdfCapture (absL ++ d :: (ds ++ tl)) = some (d :: ds) := by
      rw [pdfCapture_at_abs, if_neg hd, htk]
    have hshape : absL ++ (d :: ds) ++ tl = absL ++ d :: (ds ++ tl) := by simp
    rw [hshape]
    exact extractList_eq_of_capture hcap
/- ## Helper lemmas: trimming -/

theorem trimL_eq_rdrop (l : List Char) :
    trimL l = List.rdropWhile isWS (List.dropWhile isWS l) := rfl

theorem getLast_cons_of_ne {x : Char} {M : List Char} (h : M ≠ []) :
    (x :: M).getLast? = M.getLast? := by
  cases M with
  | nil => exact absurd rfl h
  | cons y ys => simp

theorem trimL_head_not_ws {l : List Char} {c : Char} {t : List Char}
    (h : trimL l = c :: t) : isWS c = false := by
  have hpre : trimL l <+: List.dropWhile isWS l := by
    rw [trimL_eq_rdrop]
    exact List.rdropWhile_prefix _ _
  obtain ⟨t2, ht2⟩ := hpre
  rw [h] at ht2
  have hh : (List.dropWhile isWS l).head? = some c := by
    rw [← ht2]
    simp
  have h3 := List.head?_dropWhile_not isWS l
  rw [hh] at h3
  exact h3

theorem trimL_getLast_not_ws {l : List Char} {c : Char}
    (h : (trimL l).getLast? = some c) : isWS c = false := by
  have hne : trimL l ≠ [] := by
    intro he
    rw [he] at h
    simp at h
  rw [trimL_eq_rdrop] at h hne
  have h2 := List.rdropWhile_last_not (p := isWS) (l := List.dropWhile isWS l) hne
  have h3 := List.getLast?_eq_getLast _ hne
  rw [h3] at h
  have h4 : (List.rdropWhile isWS (List.dropWhile isWS l)).getLast hne = c := by
    simpa using h
  rw [← h4]
  simpa using h2

theorem trimL_idem (l : List Char) : trimL (trimL l) = trimL l := by
  cases ht : trimL l with
  | nil => rfl
  | cons c t =>
    have hc : isWS c = false := trimL_head_not_ws ht
    have h1 : List.dropWhile isWS (c :: t) = c :: t := by
      rw [List.dropWhile_cons_of_neg]
      simp [hc]
    have h2 : List.rdropWhile isWS (c :: t) = c :: t := by
      rw [List.rdropWhile_eq_self_iff]
      intro hl
      have hsome := List.getLast?_eq_getLast (c :: t) hl
      have hlast : isWS ((c :: t).getLast hl) = false :=
        trimL_getLast_not_ws (l := l) (by rw [ht]; exact hsome)
      simp [hlast]
    rw [trimL_eq_rdrop, h1, h2]

/- ## Helper lemmas: whitespace collapsing -/

theorem flushRun_ne_nil (f : Char) (n : Nat) : flushRun f n ≠ [] := by
  rw [flushRun]
  split <;> simp

theorem collapseGo_none_cons_pos {c : Char} (cs : List Char) (h : isWS c = true) :
    collapseGo none (c :: cs) = collapseGo (some (c, 1)) cs := by
  simp only [collapseGo, h, if_true]

theorem collapseGo_none_cons_neg {c : Char} (cs : List Char) (h : isWS c = false) :
    collapseGo none (c :: cs) = c :: collapseGo none cs := by
  simp only [collapseGo, h, Bool.false_eq_true, if_false]

theorem collapseGo_some_cons_pos {c f : Char} {n : Nat} (cs : List Char) (h : isWS c = true) :
    collapseGo (some (f, n)) (c :: cs) = collapseGo (some (f, n + 1)) cs := by
  simp only [collapseGo, h, if_true]

theorem collapseGo_some_cons_neg {c f : Char} {n : Nat} (cs : List Char) (h : isWS c = false) :
    collapseGo (some (f, n)) (c :: cs) = flushRun f n ++ c :: collapseGo none cs := by
  simp only [collapseGo, h, Bool.false_eq_true, if_false]

theorem collapseGo_ne_nil (l : List Char) :
    ∀ st : Option (Char × Nat), l ≠ [] ∨ st ≠ none → collapseGo st l ≠ [] := by
  induction l with
  | nil =>
    rintro st (h | h)
    · exact absurd rfl h
    · cases st with
      | none => exact absurd rfl h
      | some fn =>
        obtain ⟨f, n⟩ := fn
        exact flushRun_ne_nil f n
  | cons c cs ih =>
    rintro st -
    cases st with
    | none =>
      cases hc : isWS c with
      | true =>
        rw [collapseGo_none_cons_pos cs hc]
        exact ih _ (Or.inr (by simp))
      | false =>
        rw [collapseGo_none_cons_neg cs hc]
        simp
    | some fn =>
      obtain ⟨f, n⟩ := fn
      cases hc : isWS c with
      | true =>
        rw [collapseGo_some_cons_pos cs hc]
        exact ih _ (Or.inr (by simp))
      | false =>
        rw [collapseGo_some_cons_neg cs hc]
        simp

theorem collapseGo_getLast_not_ws (l : List Char) :
    ∀ (st : Option (Char × Nat)) (c : Char),
      l.getLast? = some c → isWS c = false →
      ∀ d, (collapseGo st l).getLast? = some d → isWS d = false := by
  induction l with
  | nil =>
    intro st c hc
    simp at hc
  | cons x xs ih =>
    intro st c hc hcws d hd
    cases xs with
    | nil =>
      obtain rfl : x = c := by simpa using hc
      cases st with
      | none =>
        rw [collapseGo_none_cons_neg [] hcws] at hd
        simp only [collapseGo] at hd
        obtain rfl : x = d := by simpa using hd
        exact hcws
      | some fn =>
        obtain ⟨f, n⟩ := fn
        rw [collapseGo_some_cons_neg [] hcws] at hd
        simp only [collapseGo, List.getLast?_append] at hd
        obtain rfl : x = d := by simpa using hd
        exact hcws
    | cons y ys =>
      have hc2 : (y :: ys).getLast? = some c := by
        rw [← hc]
        simp
      have hne := collapseGo_ne_nil (y :: ys) none (Or.inl (by simp))
      cases st with
      | none =>
        cases hx : isWS x with
        | true =>
          rw [collapseGo_none_cons_pos _ hx] at hd
          exact ih _ c hc2 hcws d hd
        | false =>
          rw [collapseGo_none_cons_neg _ hx, getLast_cons_of_ne hne] at hd
          exact ih _ c hc2 hcws d hd
      | some fn =>
        obtain ⟨f, n⟩ := fn
        cases hx : isWS x with
        | true =>
          rw [collapseGo_some_cons_pos _ hx] at hd
          exact ih _ c hc2 hcws d hd
        | false =>
          rw [collapseGo_some_cons_neg _ hx, List.getLast?_append,
            getLast_cons_of_ne hne] at hd
          obtain ⟨e, he⟩ := Option.isSome_iff_exists.mp
            (by simp [List.getLast?_eq_getLast _ hne] :
              ((collapseGo none (y :: ys)).getLast?).isSome = true)
          rw [he] at hd
          have hde : e = d := by simpa using hd
          exact hde ▸ ih _ c hc2 hcws e he

theorem noEdgeWS_collapse_trim (l : List Char) :
    noEdgeWS (collapseWS (trimL l)) = true := by
  cases ht : trimL l with
  | nil => rfl
  | cons c t =>
    have hc : isWS c = false := trimL_head_not_ws ht
    have hstep : collapseWS (c :: t) = c :: collapseGo none t :=
      collapseGo_none_cons_neg t hc
    rw [hstep]
    simp only [noEdgeWS, Bool.and_eq_true]
    constructor
    · simp [hc]
    · cases t with
      | nil => simp [collapseGo, hc]
      | cons y ys =>
        obtain ⟨e, he⟩ := Option.isSome_iff_exists.mp
          (by simp [List.getLast?_eq_getLast _ (by simp : (c :: y :: ys) ≠ [])] :
            ((c :: y :: ys).getLast?).isSome = true)
        have hews : isWS e = false := trimL_getLast_not_ws (l := l) (by rw [ht]; exact he)
        have he2 : (y :: ys).getLast? = some e := by
          rw [← he]
          simp
        have hne := collapseGo_ne_nil (y :: ys) none (Or.inl (by simp))
        rw [getLast_cons_of_ne hne]
        obtain ⟨d, hdm⟩ := Option.isSome_iff_exists.mp
          (by simp [List.getLast?_eq_getLast _ hne] :
            ((collapseGo none (y :: ys)).getLast?).isSome = true)
        rw [hdm]
        have hdws := collapseGo_getLast_not_ws (y :: ys) none e he2 hews d hdm
        simp [hdws]

/- ## Helper lemmas: field access and the normalizer's control flow -/

theorem truthy_of_getField_some {e : JValue} {k : String} {v : JValue}
    (h : getField e k = some v) : truthy e = true := by
  cases e <;> first | rfl | simp [getField] at h

theorem getField_of_strField {e : JValue} {k s : String}
    (h : strField e k = some s) : getField e k = some (JValue.str s) := by
  unfold strField at h
  split at h
  · next s2 heq =>
    obtain rfl : s2 = s := by simpa using h
    exact heq
  · simp at h

theorem transform_eq_some_mk {e : JValue} {u a : String}
    (ht : truthy e = true) (hu : strField e "id" = some u)
    (ha : extractArxivId u = some a) (hlen : ¬ a.length = 0) :
    transformEntryToPaperSummary e = some (mkSummary e u a) := by
  simp [transformEntryToPaperSummary, ht, hu, ha, hlen]

theorem transform_some_inv {e : JValue} {ps : PaperSummary}
    (h : transformEntryToPaperSummary e = some ps) :
    ∃ u a, truthy e = true ∧ strField e "id" = some u ∧ extractArxivId u = some a ∧
      a ≠ "" ∧ ps = mkSummary e u a := by
  by_cases ht : truthy e = true
  · cases hu : strField e "id" with
    | none => simp [transformEntryToPaperSummary, ht, hu] at h
    | some u =>
      cases ha : extractArxivId u with
      | none => simp [transformEntryToPaperSummary, ht, hu, ha] at h
      | some a =>
        by_cases hlen : a.length = 0
        · simp [transformEntryToPaperSummary, ht, hu, ha, hlen] at h
        · have hne : a ≠ "" := by
            intro hcon
            rw [hcon] at hlen
            exact hlen rfl
          refine ⟨u, a, ht, rfl, ha, hne, ?_⟩
          have h2 := transform_eq_some_mk ht hu ha hlen
          rw [h2] at h
          exact (Option.some.injEq _ _ ▸ h).symm
  · have ht2 : truthy e = false := by simpa using ht
    simp [transformEntryToPaperSummary, ht2] at h

theorem extractArxivId_ne_empty {u a : String} (h : extractArxivId u = some a) :
    ¬ a.length = 0 := by
  unfold extractArxivId at h
  cases hx : extractList u.data with
  | none => rw [hx] at h; simp at h
  | some r =>
    rw [hx] at h
    obtain rfl : String.mk r = a := by simpa using h
    obtain ⟨-, -, -, hr, -⟩ := extractList_eq_some hx
    simpa [String.length] using fun hcon => hr (List.length_eq_zero.mp hcon)

theorem transform_eq_none_iff (e : JValue) :
    transformEntryToPaperSummary e = none ↔
      truthy e = false ∨ strField e "id" = none ∨
        ∃ s, strField e "id" = some s ∧ extractList s.data = none := by
  constructor
  · intro h
    by_cases ht : truthy e = true
    · cases hu : strField e "id" with
      | none => exact Or.inr (Or.inl rfl)
      | some u =>
        cases ha : extractArxivId u with
        | none =>
          refine Or.inr (Or.inr ⟨u, rfl, ?_⟩)
          unfold extractArxivId at ha
          cases hx : extractList u.data with
          | none => rfl
          | some r => rw [hx] at ha; simp at ha
        | some a =>
          have h2 := transform_eq_some_mk ht hu ha (extractArxivId_ne_empty ha)
          rw [h2] at h
          simp at h
    · exact Or.inl (by simpa using ht)
  · rintro (ht | hu | ⟨s, hs, hx⟩)
    · simp [transformEntryToPaperSummary, ht]
    · by_cases ht : truthy e = true
      · simp [transformEntryToPaperSummary, ht, hu]
      · simp [transformEntryToPaperSummary, show truthy e = false from by simpa using ht]
    · by_cases ht : truthy e = true
      · have ha : extractArxivId s = none := by
          unfold extractArxivId
          rw [hx]
          rfl
        simp [transformEntryToPaperSummary, ht, hs, ha]
      · simp [transformEntryToPaperSummary, show truthy e = false from by simpa using ht]

/- ## Helper lemmas: association-list congruence for the field-shape claims -/

theorem lookupField_append_ne (pre post : List (String × JValue)) (f k : String)
    (v v2 : JValue) (hk : k ≠ f) :
    lookupField (pre ++ (f, v) :: post) k = lookupField (pre ++ (f, v2) :: post) k := by
  induction pre with
  | nil => simp [lookupField, Ne.symm hk]
  | cons p ps ih =>
    obtain ⟨pk, pv⟩ := p
    by_cases hpk : pk = k
    · simp [lookupField, hpk]
    · simp [lookupField, hpk, ih]

theorem lookupField_append_absent (pre post : List (String × JValue)) (f k : String)
    (v : JValue) (hk : k ≠ f) :
    lookupField (pre ++ post) k = lookupField (pre ++ (f, v) :: post) k := by
  induction pre with
  | nil => simp [lookupField, Ne.symm hk]
  | cons p ps ih =>
    obtain ⟨pk, pv⟩ := p
    by_cases hpk : pk = k
    · simp [lookupField, hpk]
    · simp [lookupField, hpk, ih]

theorem lookupField_append_self (pre post : List (String × JValue)) (f : String)
    (v : JValue) (hpre : lookupField pre f = none) :
    lookupField (pre ++ (f, v) :: post) f = some v := by
  induction pre with
  | nil => simp [lookupField]
  | cons p ps ih =>
    obtain ⟨pk, pv⟩ := p
    by_cases hpk : pk = f
    · rw [lookupField] at hpre
      simp [hpk] at hpre
    · rw [lookupField] at hpre
      rw [if_neg hpk] at hpre
      simp only [List.cons_append, lookupField, if_neg hpk]
      exact ih hpre

theorem lookupField_append_none (pre post : List (String × JValue)) (f : String)
    (hpre : lookupField pre f = none) (hpost : lookupField post f = none) :
    lookupField (pre ++ post) f = none := by
  induction pre with
  | nil => simpa using hpost
  | cons p ps ih =>
    obtain ⟨pk, pv⟩ := p
    by_cases hpk : pk = f
    · rw [lookupField] at hpre
      simp [hpk] at hpre
    · rw [lookupField] at hpre
      rw [if_neg hpk] at hpre
      simp only [List.cons_append, lookupField, if_neg hpk]
      exact ih hpre

theorem transform_congr {e1 e2 : JValue}
    (h0 : truthy e1 = truthy e2)
    (hid : strField e1 "id" = strField e2 "id")
    (hti : strField e1 "title" = strField e2 "title")
    (hsu : strField e1 "summary" = strField e2 "summary")
    (hpu : strField e1 "published" = strField e2 "published")
    (hup : strField e1 "updated" = strField e2 "updated")
    (hli : seqField e1 "link" = seqField e2 "link")
    (hau : seqField e1 "author" = seqField e2 "author")
    (hca : seqField e1 "category" = seqField e2 "category") :
    transformEntryToPaperSummary e1 = transformEntryToPaperSummary e2 := by
  simp only [transformEntryToPaperSummary, mkSummary, titleOf, summaryOf, publishedOf,
    updatedOf, pdfLinkOf, authorsOf, categoriesOf, h0, hid, hti, hsu, hpu, hup, hli,
    hau, hca]

/- ## Helper lemmas: PDF link resolution -/

theorem startsWithL_append_right {p l : List Char} (t : List Char)
    (h : startsWithL p l = true) : startsWithL p (l ++ t) = true := by
  obtain ⟨t0, rfl⟩ := (startsWithL_iff p l).1 h
  rw [List.append_assoc]
  exact startsWithL_self_append p (t0 ++ t)

theorem ne_nil_of_startsWithL {p : Char} {ps l : List Char}
    (h : startsWithL (p :: ps) l = true) : l ≠ [] := by
  cases l with
  | nil => exact absurd h (by simp [startsWithL])
  | cons c cs => simp

theorem string_mk_ne_empty {l : List Char} (h : l ≠ []) : String.mk l ≠ "" := by
  intro hcon
  exact h (congrArg String.data hcon)

theorem replaceFirst_http (t : List Char) :
    startsWithL httpL (replaceFirst absL pdfL (httpL ++ t)) = true := by
  have h6 : replaceFirst absL pdfL (httpL ++ t)
      = 'h' :: 't' :: 't' :: 'p' :: ':' :: '/' :: replaceFirst absL pdfL ('/' :: t) := rfl
  have hstep : replaceFirst absL pdfL ('/' :: t)
      = if startsWithL absL ('/' :: t) then pdfL ++ ('/' :: t).drop absL.length
        else '/' :: replaceFirst absL pdfL t := rfl
  rw [h6, hstep]
  cases hs : startsWithL absL ('/' :: t) with
  | true => rfl
  | false => rfl

theorem replaceFirst_https (t : List Char) :
    startsWithL httpsL (replaceFirst absL pdfL (httpsL ++ t)) = true := by
  have h7 : replaceFirst absL pdfL (httpsL ++ t)
      = 'h' :: 't' :: 't' :: 'p' :: 's' :: ':' :: '/' :: replaceFirst absL pdfL ('/' :: t) := rfl
  have hstep : replaceFirst absL pdfL ('/' :: t)
      = if startsWithL absL ('/' :: t) then pdfL ++ ('/' :: t).drop absL.length
        else '/' :: replaceFirst absL pdfL t := rfl
  rw [h7, hstep]
  cases hs : startsWithL absL ('/' :: t) with
  | true => rfl
  | false => rfl

theorem pdfLinkOf_of_found {e : JValue} {idUrl : String} {l : JValue} {h : String}
    (hfind : (seqField e "link").find? isPdfLink = some l)
    (hhref : getField l "@_href" = some (JValue.str h)) (hne : h ≠ "") :
    pdfLinkOf e idUrl = h := by
  have hhv : hrefOf l = h := by
    unfold hrefOf
    rw [hhref]
  simp only [pdfLinkOf, hfind, hhv]
  split
  · next hcond => simp [hne] at hcond
  · rfl

theorem pdfLinkOf_of_fromLink_empty {e : JValue} {idUrl : String}
    (hfl : (match (seqField e "link").find? isPdfLink with
            | some l => hrefOf l
            | none => "") = "")
    (hocc : occursL absL idUrl.data = true) :
    pdfLinkOf e idUrl =
      (if startsWithL httpL (replaceFirst absL pdfL idUrl.data ++ dotPdfL)
          || startsWithL httpsL (replaceFirst absL pdfL idUrl.data ++ dotPdfL)
        then String.mk (replaceFirst absL pdfL idUrl.data ++ dotPdfL)
        else "") := by
  simp only [pdfLinkOf, hfl]
  simp [hocc]

theorem pdfLinkOf_of_fromLink_ne {e : JValue} {idUrl : String}
    (hfl : (match (seqField e "link").find? isPdfLink with
            | some l => hrefOf l
            | none => "") ≠ "") :
    pdfLinkOf e idUrl =
      (match (seqField e "link").find? isPdfLink with
       | some l => hrefOf l
       | none => "") := by
  simp only [pdfLinkOf]
  split
  · next hcond =>
    rw [Bool.and_eq_true] at hcond
    exact absurd (by simpa using hcond.1) hfl
  · rfl

theorem hrefOf_empty_of_spec_false {l : JValue}
    (h1 : isPdfLink l = true) (h2 : isPdfLinkPerSpec l = false) : hrefOf l = "" := by
  cases l with
  | obj fields =>
    simp only [isPdfLink, Bool.and_eq_true] at h1
    obtain ⟨hta, hhb⟩ := h1
    cases hhr : lookupField fields "@_href" with
    | none => rw [hhr] at hhb; simp at hhb
    | some v =>
      cases v with
      | str h =>
        simp only [isPdfLinkPerSpec, hta, Bool.true_and, hhr] at h2
        have hh : h = "" := by simpa using h2
        simp only [hrefOf, getField, hhr, hh]
      | null => rw [hhr] at hhb; simp at hhb
      | bool b => rw [hhr] at hhb; simp at hhb
      | num n => rw [hhr] at hhb; simp at hhb
      | arr xs => rw [hhr] at hhb; simp at hhb
      | obj fs => rw [hhr] at hhb; simp at hhb
  | null => simp [isPdfLink] at h1
  | bool b => simp [isPdfLink] at h1
  | num n => simp [isPdfLink] at h1
  | str s => simp [isPdfLink] at h1
  | arr xs => simp [isPdfLink] at h1

theorem fromLink_empty_of_no_spec_link {e : JValue}
    (h : ∀ l ∈ seqField e "link", isPdfLinkPerSpec l = false) :
    (match (seqField e "link").find? isPdfLink with
     | some l => hrefOf l
     | none => "") = "" := by
  cases hfind : (seqField e "link").find? isPdfLink with
  | none => rfl
  | some l =>
    have hmem := List.mem_of_find?_eq_some hfind
    have hp := List.find?_some hfind
    exact hrefOf_empty_of_spec_false hp (h l hmem)

/- ## Claim theorems -/

/-- C1: for every entry whose id field is a string of the form
prefix-abs-ID or prefix-abs-ID-v-N (the first position at which the regex can
match being the shown abs marker), the entry normalizer accepts the entry and
the resulting PaperSummary id equals exactly ID, with the version suffix and
anything after it stripped. -/
theorem c1_id_extraction (e : JValue) (s : String) (p ID tl : List Char)
    (hid : strField e "id" = some s)
    (hs : s.data = p ++ (absL ++ ID ++ tl))
    (hID : ID ≠ []) (hv : ∀ c ∈ ID, c ≠ 'v')
    (htl : tl = [] ∨ ∃ t2, tl = 'v' :: t2)
    (hearly : ∀ i, i < p.length → pdfCapture (s.data.drop i) = none) :
    ∃ ps, transformEntryToPaperSummary e = some ps ∧ ps.id = String.mk ID := by
  have ht : truthy e = true := truthy_of_getField_some (getField_of_strField hid)
  have hex : extractList s.data = some ID := by
    rw [hs]
    exact extractList_versioned p ID tl hID hv htl (by rw [← hs]; exact hearly)
  have haid : extractArxivId s = some (String.mk ID) := by
    unfold extractArxivId
    rw [hex]
    rfl
  have hlen : ¬ (String.mk ID).length = 0 := by
    intro hcon
    apply hID
    apply List.length_eq_zero.mp
    simpa [String.length] using hcon
  exact ⟨mkSummary e s (String.mk ID), transform_eq_some_mk ht hid haid hlen, rfl⟩

/-- Witness for C1 at the versioned id http-arxiv-org-abs-2301.00001-v2. -/
theorem c1_id_extraction_witness :
    ∃ ps, transformEntryToPaperSummary entryVersioned = some ps ∧ ps.id = "2301.00001" := by
  obtain ⟨ps, h1, h2⟩ := c1_id_extraction entryVersioned "http://arxiv.org/abs/2301.00001v2"
    ("http://arxiv.org".data) ("2301.00001".data) ['v', '2']
    (by rfl) (by decide) (by decide) (by decide) (Or.inr ⟨['2'], rfl⟩) (by decide)
  refine ⟨ps, h1, ?_⟩
  rw [h2]

/-- C2 as stated is false: this entry's id is present, is a string, and
contains the abs marker followed by at least one character, yet the
normalizer rejects it (the character after the marker is 'v'). -/
theorem c2_counterexample :
    strField entryAbsV "id" = some "http://x/abs/v1" ∧
    ("http://x/abs/v1").data = ("http://x").data ++ absL ++ ['v', '1'] ∧
    transformEntryToPaperSummary entryAbsV = none := by
  refine ⟨rfl, by decide, by decide⟩

/-- C2 amended: an entry is rejected exactly when it is falsy, lacks a string
id, or its id has no position at which the abs marker is followed by at least
one character other than 'v'; and a rejected entry contributes nothing to the
collection normalizer's output while leaving the other entries' records
unaffected. -/
theorem c2_rejection_characterization (e : JValue) :
    (transformEntryToPaperSummary e = none ↔
      truthy e = false ∨ strField e "id" = none ∨
        ∃ s, strField e "id" = some s ∧
          ∀ i, i < s.data.length → pdfCapture (s.data.drop i) = none) ∧
    (∀ pre post : List JValue, transformEntryToPaperSummary e = none →
      papersOfEntries (pre ++ e :: post) = papersOfEntries pre ++ papersOfEntries post) := by
  constructor
  · rw [transform_eq_none_iff e]
    constructor
    · rintro (h | h | ⟨s, hs, hx⟩)
      · exact Or.inl h
      · exact Or.inr (Or.inl h)
      · exact Or.inr (Or.inr ⟨s, hs, (extractList_eq_none_iff s.data).1 hx⟩)
    · rintro (h | h | ⟨s, hs, hx⟩)
      · exact Or.inl h
      · exact Or.inr (Or.inl h)
      · exact Or.inr (Or.inr ⟨s, hs, (extractList_eq_none_iff s.data).2 hx⟩)
  · intro pre post h
    unfold papersOfEntries
    rw [List.map_append, List.reduceOption_append, List.map_cons, h,
      List.reduceOption_cons_of_none]

/-- Witness for C2: the abs-v entry is rejected and drops out of a batch
without affecting its neighbours. -/
theorem c2_rejection_characterization_witness :
    transformEntryToPaperSummary entryAbsV = none ∧
    papersOfEntries ([entryVersioned] ++ entryAbsV :: [entryVersioned])
      = papersOfEntries [entryVersioned] ++ papersOfEntries [entryVersioned] := by
  have h1 := ((c2_rejection_characterization entryAbsV).1).mpr
    (Or.inr (Or.inr ⟨"http://x/abs/v1", rfl, by decide⟩))
  exact ⟨h1, (c2_rejection_characterization entryAbsV).2 [entryVersioned] [entryVersioned] h1⟩

/-- C3 as stated is false: in this entry the first link whose title is pdf
and whose href is a non-empty string has href zzz, yet the produced pdfLink
is the synthesized fallback, because the code's find accepts the earlier
pdf-titled link whose href is the empty string. -/
theorem c3_counterexample :
    (seqField entryShadowedLink "link").find? isPdfLinkPerSpec
        = some (JValue.obj [("@_title", JValue.str "pdf"), ("@_href", JValue.str "zzz")]) ∧
    (transformEntryToPaperSummary entryShadowedLink).map PaperSummary.pdfLink
        = some "http://x/pdf/1.pdf" ∧
    ("http://x/pdf/1.pdf" : String) ≠ "zzz" := by
  refine ⟨by rfl, by decide, by decide⟩

/-- C3 amended: the normalizer selects the first link in the
sequence-normalized link field whose title equals the literal pdf and whose
href is a string, the empty string included; whenever the selected link's
href is non-empty, the PaperSummary pdfLink equals that href. -/
theorem c3_first_string_href_link (e : JValue) (ps : PaperSummary) (l : JValue) (h : String)
    (htr : transformEntryToPaperSummary e = some ps)
    (hfind : (seqField e "link").find? isPdfLink = some l)
    (hhref : getField l "@_href" = some (JValue.str h))
    (hne : h ≠ "") :
    ps.pdfLink = h := by
  obtain ⟨u, a, -, -, -, -, rfl⟩ := transform_some_inv htr
  show pdfLinkOf e u = h
  exact pdfLinkOf_of_found hfind hhref hne

/-- Witness for C3 amended at an entry with one usable pdf-titled link. -/
theorem c3_first_string_href_link_witness :
    (mkSummary entryGoodLink "http://x/abs/7" "7").pdfLink = "http://x/pdf/7v1.pdf" :=
  c3_first_string_href_link entryGoodLink _
    (JValue.obj [("@_title", JValue.str "pdf"), ("@_href", JValue.str "http://x/pdf/7v1.pdf")])
    "http://x/pdf/7v1.pdf" (by decide) (by rfl) (by rfl) (by decide)

/-- C4: when no link titled pdf with a non-empty string href exists and the
id contains the abs marker, the pdfLink is synthesized by replacing the first
abs marker with the pdf marker and appending the dot-pdf extension, accepted
exactly when it begins with the http or https scheme, and the empty string
otherwise. -/
theorem c4_fallback (e : JValue) (ps : PaperSummary) (s : String)
    (htr : transformEntryToPaperSummary e = some ps)
    (hid : strField e "id" = some s)
    (hnolink : ∀ l ∈ seqField e "link", isPdfLinkPerSpec l = false)
    (hocc : occursL absL s.data = true) :
    ps.pdfLink =
      (if startsWithL httpL (replaceFirst absL pdfL s.data ++ dotPdfL)
          || startsWithL httpsL (replaceFirst absL pdfL s.data ++ dotPdfL)
        then String.mk (replaceFirst absL pdfL s.data ++ dotPdfL)
        else "") := by
  obtain ⟨u, a, -, hu, -, -, rfl⟩ := transform_some_inv htr
  have hus : u = s := by
    rw [hu] at hid
    simpa using hid
  subst hus
  exact pdfLinkOf_of_fromLink_empty (fromLink_empty_of_no_spec_link hnolink) hocc

/-- Witness for C4 at the spec's fallback example: id
http-example-org-abs-1234.5678 with no link field resolves to
http-example-org-pdf-1234.5678-dot-pdf. -/
theorem c4_fallback_witness :
    (mkSummary entryFallback "http://example.org/abs/1234.5678" "1234.5678").pdfLink
      = "http://example.org/pdf/1234.5678.pdf" := by
  have h := c4_fallback entryFallback
    (mkSummary entryFallback "http://example.org/abs/1234.5678" "1234.5678")
    "http://example.org/abs/1234.5678"
    (by decide) (by rfl) (by decide) (by decide)
  rw [h]
  decide

/- ## Helper lemmas for the field-shape claim -/

theorem getField_obj (l : List (String × JValue)) (k : String) :
    getField (JValue.obj l) k = lookupField l k := rfl

theorem optStrMatch (v : JValue) :
    (match (some v : Option JValue) with
     | some (JValue.str s) => some s
     | _ => none)
      = strView v := by
  cases v <;> rfl

theorem strField_pair_self (pre post : List (String × JValue)) (f : String)
    (v : JValue) (hpre : lookupField pre f = none) :
    strField (JValue.obj (pre ++ (f, v) :: post)) f = strView v := by
  unfold strField
  rw [getField_obj, lookupField_append_self pre post f v hpre, optStrMatch]

theorem seqField_pair_self (pre post : List (String × JValue)) (f : String)
    (v : JValue) (hpre : lookupField pre f = none) :
    seqField (JValue.obj (pre ++ (f, v) :: post)) f = toSeq (some v) := by
  unfold seqField
  rw [getField_obj, lookupField_append_self pre post f v hpre]

theorem strField_pair_ne (pre post : List (String × JValue)) (f k : String)
    (v v2 : JValue) (hk : k ≠ f) :
    strField (JValue.obj (pre ++ (f, v) :: post)) k
      = strField (JValue.obj (pre ++ (f, v2) :: post)) k := by
  unfold strField
  rw [getField_obj, getField_obj, lookupField_append_ne pre post f k v v2 hk]

theorem seqField_pair_ne (pre post : List (String × JValue)) (f k : String)
    (v v2 : JValue) (hk : k ≠ f) :
    seqField (JValue.obj (pre ++ (f, v) :: post)) k
      = seqField (JValue.obj (pre ++ (f, v2) :: post)) k := by
  unfold seqField
  rw [getField_obj, getField_obj, lookupField_append_ne pre post f k v v2 hk]

theorem strField_pair_absent (pre post : List (String × JValue)) (f k : String)
    (v : JValue) (hk : k ≠ f) :
    strField (JValue.obj (pre ++ post)) k
      = strField (JValue.obj (pre ++ (f, v) :: post)) k := by
  unfold strField
  rw [getField_obj, getField_obj, lookupField_append_absent pre post f k v hk]

theorem seqField_pair_absent (pre post : List (String × JValue)) (f k : String)
    (v : JValue) (hk : k ≠ f) :
    seqField (JValue.obj (pre ++ post)) k
      = seqField (JValue.obj (pre ++ (f, v) :: post)) k := by
  unfold seqField
  rw [getField_obj, getField_obj, lookupField_append_absent pre post f k v hk]

theorem strField_absent_self (pre post : List (String × JValue)) (f : String)
    (hpre : lookupField pre f = none) (hpost : lookupField post f = none) :
    strField (JValue.obj (pre ++ post)) f = none := by
  unfold strField
  rw [getField_obj, lookupField_append_none pre post f hpre hpost]

theorem seqField_absent_self (pre post : List (String × JValue)) (f : String)
    (hpre : lookupField pre f = none) (hpost : lookupField post f = none) :
    seqField (JValue.obj (pre ++ post)) f = [] := by
  unfold seqField
  rw [getField_obj, lookupField_append_none pre post f hpre hpost]
  rfl

theorem transform_pair_congr (pre post : List (String × JValue)) (f : String)
    (v v2 : JValue) (hpre : lookupField pre f = none)
    (hseq : toSeq (some v) = toSeq (some v2))
    (hstr : strView v = strView v2) :
    transformEntryToPaperSummary (JValue.obj (pre ++ (f, v) :: post))
      = transformEntryToPaperSummary (JValue.obj (pre ++ (f, v2) :: post)) := by
  have hstrk : ∀ k, strField (JValue.obj (pre ++ (f, v) :: post)) k
      = strField (JValue.obj (pre ++ (f, v2) :: post)) k := by
    intro k
    by_cases hk : k = f
    · subst hk
      rw [strField_pair_self pre post k v hpre, strField_pair_self pre post k v2 hpre]
      exact hstr
    · exact strField_pair_ne pre post f k v v2 hk
  have hseqk : ∀ k, seqField (JValue.obj (pre ++ (f, v) :: post)) k
      = seqField (JValue.obj (pre ++ (f, v2) :: post)) k := by
    intro k
    by_cases hk : k = f
    · subst hk
      rw [seqField_pair_self pre post k v hpre, seqField_pair_self pre post k v2 hpre]
      exact hseq
    · exact seqField_pair_ne pre post f k v v2 hk
  exact transform_congr rfl (hstrk "id") (hstrk "title") (hstrk "summary")
    (hstrk "published") (hstrk "updated") (hseqk "link") (hseqk "author") (hseqk "category")

theorem transform_pair_absent (pre post : List (String × JValue)) (f : String)
    (v : JValue) (hpre : lookupField pre f = none) (hpost : lookupField post f = none)
    (hseq : toSeq (some v) = [])
    (hstr : strView v = none) :
    transformEntryToPaperSummary (JValue.obj (pre ++ post))
      = transformEntryToPaperSummary (JValue.obj (pre ++ (f, v) :: post)) := by
  have hstrk : ∀ k, strField (JValue.obj (pre ++ post)) k
      = strField (JValue.obj (pre ++ (f, v) :: post)) k := by
    intro k
    by_cases hk : k = f
    · subst hk
      rw [strField_absent_self pre post k hpre hpost, strField_pair_self pre post k v hpre,
        hstr]
    · exact strField_pair_absent pre post f k v hk
  have hseqk : ∀ k, seqField (JValue.obj (pre ++ post)) k
      = seqField (JValue.obj (pre ++ (f, v) :: post)) k := by
    intro k
    by_cases hk : k = f
    · subst hk
      rw [seqField_absent_self pre post k hpre hpost, seqField_pair_self pre post k v hpre,
        hseq]
    · exact seqField_pair_absent pre post f k v hk
  exact transform_congr rfl (hstrk "id") (hstrk "title") (hstrk "summary")
    (hstrk "published") (hstrk "updated") (hseqk "link") (hseqk "author") (hseqk "category")

/-- C5: replacing a single-object author, category, or link field by the
one-element sequence holding the same object leaves the entry normalizer's
output unchanged, and a truly absent field is equivalent to the empty
sequence. -/
theorem c5_single_vs_sequence (pre post o : List (String × JValue)) (f : String)
    (_hf : f = "author" ∨ f = "category" ∨ f = "link")
    (hpre : lookupField pre f = none) :
    transformEntryToPaperSummary (JValue.obj (pre ++ (f, JValue.obj o) :: post))
      = transformEntryToPaperSummary (JValue.obj (pre ++ (f, JValue.arr [JValue.obj o]) :: post))
    ∧ (lookupField post f = none →
      transformEntryToPaperSummary (JValue.obj (pre ++ post))
        = transformEntryToPaperSummary (JValue.obj (pre ++ (f, JValue.arr []) :: post))) := by
  refine ⟨transform_pair_congr pre post f (JValue.obj o) (JValue.arr [JValue.obj o]) hpre rfl rfl, ?_⟩
  intro hpost
  exact transform_pair_absent pre post f (JValue.arr []) hpre hpost rfl rfl

/-- Witness for C5 at a one-author entry. -/
theorem c5_single_vs_sequence_witness :
    transformEntryToPaperSummary (JValue.obj ([("id", JValue.str "http://x/abs/8")]
        ++ ("author", JValue.obj [("name", JValue.str " C ")]) :: []))
      = transformEntryToPaperSummary (JValue.obj ([("id", JValue.str "http://x/abs/8")]
        ++ ("author", JValue.arr [JValue.obj [("name", JValue.str " C ")]]) :: []))
    ∧ transformEntryToPaperSummary (JValue.obj ([("id", JValue.str "http://x/abs/8")] ++ []))
      = transformEntryToPaperSummary (JValue.obj ([("id", JValue.str "http://x/abs/8")]
        ++ ("author", JValue.arr []) :: [])) := by
  have h := c5_single_vs_sequence [("id", JValue.str "http://x/abs/8")] []
    [("name", JValue.str " C ")] "author" (Or.inl rfl) rfl
  exact ⟨h.1, h.2 rfl⟩

/- ## Helper lemmas for the text and people claims -/

theorem string_ne_empty_iff (s : String) : s ≠ "" ↔ s.data ≠ [] := by
  constructor
  · intro h hcon
    exact h (String.ext hcon)
  · intro h hcon
    rw [hcon] at h
    exact h rfl

theorem keepNonempty_eq (s : String) :
    keepNonempty (some s) = if s = "" then none else some s := by
  show (if s.length > 0 then some s else none) = if s = "" then none else some s
  by_cases h : s = ""
  · subst h
    rfl
  · have hd : s.data ≠ [] := (string_ne_empty_iff s).1 h
    have hpos : s.length > 0 := List.length_pos.2 hd
    rw [if_pos hpos, if_neg h]

theorem authorName_obj (fs : List (String × JValue)) :
    authorName (JValue.obj fs)
      = (match lookupField fs "name" with
         | some (JValue.str s) => some (String.mk (trimL s.data))
         | _ => none) := rfl

theorem authorPerSpec1_obj (fs : List (String × JValue)) :
    authorPerSpec1 (JValue.obj fs)
      = (match lookupField fs "name" with
         | some (JValue.str s) =>
           if String.mk (trimL s.data) = "" then none
           else some (String.mk (trimL s.data))
         | _ => none) := rfl

theorem author_pointwise (a : JValue) :
    keepNonempty (authorName a) = authorPerSpec1 a := by
  cases a with
  | obj fs =>
    rw [authorName_obj, authorPerSpec1_obj]
    cases hv : lookupField fs "name" with
    | none => rfl
    | some v =>
      cases v with
      | str s => exact keepNonempty_eq (String.mk (trimL s.data))
      | null => rfl
      | bool b => rfl
      | num n => rfl
      | arr xs => rfl
      | obj fs2 => rfl
  | null => rfl
  | bool b => cases b with | true => rfl | false => rfl
  | num n =>
    unfold authorName
    split
    · rfl
    · rfl
  | str s =>
    unfold authorName
    split
    · rfl
    · rfl
  | arr xs => rfl

theorem categoryTerm_obj (fs : List (String × JValue)) :
    categoryTerm (JValue.obj fs)
      = (match lookupField fs "@_term" with
         | some (JValue.str s) => some s
         | _ => none) := rfl

theorem categoryPerSpec1_obj (fs : List (String × JValue)) :
    categoryPerSpec1 (JValue.obj fs)
      = (match lookupField fs "@_term" with
         | some (JValue.str s) => if s = "" then none else some s
         | _ => none) := rfl

theorem category_pointwise (c : JValue) :
    keepNonempty (categoryTerm c) = categoryPerSpec1 c := by
  cases c with
  | obj fs =>
    rw [categoryTerm_obj, categoryPerSpec1_obj]
    cases hv : lookupField fs "@_term" with
    | none => rfl
    | some v =>
      cases v with
      | str s => exact keepNonempty_eq s
      | null => rfl
      | bool b => rfl
      | num n => rfl
      | arr xs => rfl
      | obj fs2 => rfl
  | null => rfl
  | bool b => cases b with | true => rfl | false => rfl
  | num n =>
    unfold categoryTerm
    split
    · rfl
    · rfl
  | str s =>
    unfold categoryTerm
    split
    · rfl
    · rfl
  | arr xs => rfl

theorem authorsOf_eq_spec (e : JValue) : authorsOf e = authorsPerSpec e := by
  unfold authorsOf authorsPerSpec
  rw [List.filterMap_map]
  congr 1
  funext a
  exact author_pointwise a

theorem categoriesOf_eq_spec (e : JValue) : categoriesOf e = categoriesPerSpec e := by
  unfold categoriesOf categoriesPerSpec
  rw [List.filterMap_map]
  congr 1
  funext c
  exact category_pointwise c

theorem keepNonempty_some_inv {o : Option String} {s : String}
    (h : keepNonempty o = some s) : o = some s ∧ s ≠ "" := by
  cases o with
  | none => simp [keepNonempty] at h
  | some t =>
    have h2 : (if t.length > 0 then some t else none) = some s := h
    by_cases hl : t.length > 0
    · rw [if_pos hl] at h2
      obtain rfl : t = s := by simpa using h2
      refine ⟨rfl, ?_⟩
      intro hcon
      rw [hcon] at hl
      exact absurd hl (by decide)
    · rw [if_neg hl] at h2
      simp at h2

theorem authorName_some_inv {a : JValue} {s : String}
    (h : authorName a = some s) : ∃ t : List Char, s = String.mk (trimL t) := by
  unfold authorName at h
  split at h
  · split at h
    · next s0 heq =>
      obtain rfl : String.mk (trimL s0.data) = s := by simpa using h
      exact ⟨s0.data, rfl⟩
    · simp at h
  · simp at h

/-- C6: a present string title or summary is trimmed with every run of two or
more whitespace characters collapsed into one space, leaving no leading or
trailing whitespace; an absent or non-string field yields the fixed non-empty
placeholder. -/
theorem c6_text_normalization (e : JValue) (ps : PaperSummary)
    (htr : transformEntryToPaperSummary e = some ps) :
    ((∀ s, strField e "title" = some s →
        ps.title = String.mk (collapseWS (trimL s.data)) ∧ noEdgeWS ps.title.data = true) ∧
      (strField e "title" = none → ps.title = titlePlaceholder)) ∧
    ((∀ s, strField e "summary" = some s →
        ps.summary = String.mk (collapseWS (trimL s.data)) ∧ noEdgeWS ps.summary.data = true) ∧
      (strField e "summary" = none → ps.summary = summaryPlaceholder)) ∧
    titlePlaceholder ≠ "" ∧ summaryPlaceholder ≠ "" := by
  obtain ⟨u, a, -, -, -, -, rfl⟩ := transform_some_inv htr
  refine ⟨⟨?_, ?_⟩, ⟨?_, ?_⟩, by decide, by decide⟩
  · intro s hs
    have hv : (mkSummary e u a).title = normalizeText s := by
      show titleOf e = normalizeText s
      unfold titleOf
      rw [hs]
    rw [hv]
    exact ⟨rfl, noEdgeWS_collapse_trim s.data⟩
  · intro hs
    show titleOf e = titlePlaceholder
    unfold titleOf
    rw [hs]
  · intro s hs
    have hv : (mkSummary e u a).summary = normalizeText s := by
      show summaryOf e = normalizeText s
      unfold summaryOf
      rw [hs]
    rw [hv]
    exact ⟨rfl, noEdgeWS_collapse_trim s.data⟩
  · intro hs
    show summaryOf e = summaryPlaceholder
    unfold summaryOf
    rw [hs]

/-- Witness for C6 at a whitespace-heavy entry. -/
theorem c6_text_normalization_witness :
    (mkSummary entryWhitespace "http://x/abs/5" "5").title = "A B" ∧
    (mkSummary entryWhitespace "http://x/abs/5" "5").summary = "S T" ∧
    noEdgeWS ("A B").data = true := by
  obtain ⟨⟨h1, -⟩, ⟨h2, -⟩, -, -⟩ :=
    c6_text_normalization entryWhitespace (mkSummary entryWhitespace "http://x/abs/5" "5")
      (by decide)
  have ht := h1 "  A   B " rfl
  have hs := h2 " S  T  " rfl
  refine ⟨?_, ?_, by decide⟩
  · rw [ht.1]
    decide
  · rw [hs.1]
    decide

/-- C7: the authors sequence is the sequence-normalized author field mapped
to each element's trimmed name when the name is a string, dropping absent,
non-string, or empty-after-trimming names; the categories sequence is the
sequence-normalized category field mapped to each element's term attribute
when it is a string, dropping absent, non-string, or empty terms; order and
duplicates preserved. -/
theorem c7_authors_categories (e : JValue) (ps : PaperSummary)
    (htr : transformEntryToPaperSummary e = some ps) :
    ps.authors = authorsPerSpec e ∧ ps.categories = categoriesPerSpec e := by
  obtain ⟨u, a, -, -, -, -, rfl⟩ := transform_some_inv htr
  constructor
  · show authorsOf e = authorsPerSpec e
    exact authorsOf_eq_spec e
  · show categoriesOf e = categoriesPerSpec e
    exact categoriesOf_eq_spec e

/-- Witness for C7: duplicates and order preserved, degenerate elements
dropped. -/
theorem c7_authors_categories_witness :
    (mkSummary entryPeople "http://x/abs/6" "6").authors = ["C", "C"] ∧
    (mkSummary entryPeople "http://x/abs/6" "6").categories = ["cs.AI", "cs.AI"] := by
  have h := c7_authors_categories entryPeople (mkSummary entryPeople "http://x/abs/6" "6")
    (by decide)
  refine ⟨?_, ?_⟩
  · rw [h.1]
    decide
  · rw [h.2]
    decide

/-- C8: a feed object without an entry key is an empty-sequence success; a
null or primitive parsed root is a server error and never an empty-sequence
success. -/
theorem c8_root_shapes :
    handleParsedData (JValue.obj [("feed", JValue.obj [])]) = ApiOutcome.ok [] ∧
    ∀ d : JValue, isPrimitiveOrNull d = true →
      handleParsedData d = ApiOutcome.serverError ∧
        ∀ l : List PaperSummary, handleParsedData d ≠ ApiOutcome.ok l := by
  refine ⟨by decide, ?_⟩
  intro d hd
  have hsv : handleParsedData d = ApiOutcome.serverError := by
    cases d with
    | null => rfl
    | bool b => rfl
    | num n => rfl
    | str s => rfl
    | arr xs => simp [isPrimitiveOrNull] at hd
    | obj fs => simp [isPrimitiveOrNull] at hd
  refine ⟨hsv, ?_⟩
  intro l hcon
  rw [hsv] at hcon
  exact ApiOutcome.noConfusion hcon

/-- Witness for C8 at the null root. -/
theorem c8_root_shapes_witness :
    handleParsedData JValue.null = ApiOutcome.serverError ∧
      handleParsedData JValue.null ≠ ApiOutcome.ok [] :=
  ⟨(c8_root_shapes.2 JValue.null (by decide)).1,
   (c8_root_shapes.2 JValue.null (by decide)).2 []⟩

/-- C9: every produced PaperSummary has a non-empty id that is a proper
portion of the raw id URL after the abs marker (hence never the full URL),
authors that are non-empty and unchanged by further trimming, and non-empty
categories. -/
theorem c9_output_invariants (e : JValue) (ps : PaperSummary)
    (htr : transformEntryToPaperSummary e = some ps) :
    ps.id ≠ "" ∧
    (∀ s, strField e "id" = some s →
      ∃ u w, s.data = u ++ absL ++ ps.id.data ++ w ∧ ps.id.data.length < s.data.length) ∧
    (∀ a ∈ ps.authors, a ≠ "" ∧ String.mk (trimL a.data) ≠ "") ∧
    (∀ c ∈ ps.categories, c ≠ "") := by
  obtain ⟨u, a, ht, hu, ha, hne, rfl⟩ := transform_some_inv htr
  refine ⟨hne, ?_, ?_, ?_⟩
  · intro s hs
    have hus : u = s := by
      rw [hu] at hs
      simpa using hs
    subst hus
    unfold extractArxivId at ha
    cases hx : extractList u.data with
    | none =>
      rw [hx] at ha
      simp at ha
    | some r =>
      rw [hx] at ha
      obtain rfl : String.mk r = a := by simpa using ha
      obtain ⟨u0, w, hdecomp, hrne, -⟩ := extractList_eq_some hx
      refine ⟨u0, w, ?_, ?_⟩
      · exact hdecomp
      · rw [hdecomp]
        show r.length < (u0 ++ absL ++ r ++ w).length
        simp [absL]
        omega
  · intro a2 ha2
    have ha2b : a2 ∈ authorsOf e := ha2
    unfold authorsOf at ha2b
    obtain ⟨o, ho, hk⟩ := List.mem_filterMap.mp ha2b
    obtain ⟨hosome, hne2⟩ := keepNonempty_some_inv hk
    obtain ⟨jv, hjv, hname⟩ := List.mem_map.mp ho
    rw [hosome] at hname
    obtain ⟨t, rfl⟩ := authorName_some_inv hname
    refine ⟨hne2, ?_⟩
    show String.mk (trimL (String.mk (trimL t)).data) ≠ ""
    have hdata : (String.mk (trimL t)).data = trimL t := rfl
    rw [hdata, trimL_idem]
    exact hne2
  · intro c hc
    have hcb : c ∈ categoriesOf e := hc
    unfold categoriesOf at hcb
    obtain ⟨o, ho, hk⟩ := List.mem_filterMap.mp hcb
    exact (keepNonempty_some_inv hk).2

/-- Witness for C9 at the people entry. -/
theorem c9_output_invariants_witness :
    (mkSummary entryPeople "http://x/abs/6" "6").id ≠ "" ∧
    (∃ u w, ("http://x/abs/6").data
        = u ++ absL ++ (mkSummary entryPeople "http://x/abs/6" "6").id.data ++ w) ∧
    ∀ a ∈ (mkSummary entryPeople "http://x/abs/6" "6").authors, a ≠ "" := by
  have h := c9_output_invariants entryPeople (mkSummary entryPeople "http://x/abs/6" "6")
    (by decide)
  obtain ⟨u, w, hd, -⟩ := h.2.1 "http://x/abs/6" rfl
  exact ⟨h.1, ⟨u, w, hd⟩, fun a ha => (h.2.2.1 a ha).1⟩

/-- C10: for every accepted entry whose raw id string begins with the http or
https scheme, the resulting pdfLink is non-empty: acceptance guarantees the
id contains the abs marker, so the synthesized fallback exists and passes the
scheme check. -/
theorem c10_scheme_pdflink (e : JValue) (ps : PaperSummary) (s : String)
    (htr : transformEntryToPaperSummary e = some ps)
    (hid : strField e "id" = some s)
    (hscheme : startsWithL httpL s.data = true ∨ startsWithL httpsL s.data = true) :
    ps.pdfLink ≠ "" := by
  obtain ⟨u, a, ht, hu, ha, hne, rfl⟩ := transform_some_inv htr
  have hus : u = s := by
    rw [hu] at hid
    simpa using hid
  subst hus
  show pdfLinkOf e u ≠ ""
  have hocc : occursL absL u.data = true := by
    unfold extractArxivId at ha
    cases hx : extractList u.data with
    | none =>
      rw [hx] at ha
      simp at ha
    | some r => exact occursL_absL_of_extract hx
  by_cases hfl : (match (seqField e "link").find? isPdfLink with
      | some l => hrefOf l
      | none => "") = ""
  · rw [pdfLinkOf_of_fromLink_empty hfl hocc]
    rcases hscheme with h | h
    · obtain ⟨t, hts⟩ := (startsWithL_iff _ _).1 h
      rw [hts]
      have hcand : startsWithL httpL (replaceFirst absL pdfL (httpL ++ t) ++ dotPdfL) = true :=
        startsWithL_append_right _ (replaceFirst_http t)
      rw [if_pos (by simp [hcand])]
      apply string_mk_ne_empty
      simp [dotPdfL]
    · obtain ⟨t, hts⟩ := (startsWithL_iff _ _).1 h
      rw [hts]
      have hcand : startsWithL httpsL (replaceFirst absL pdfL (httpsL ++ t) ++ dotPdfL) = true :=
        startsWithL_append_right _ (replaceFirst_https t)
      rw [if_pos (by simp [hcand])]
      apply string_mk_ne_empty
      simp [dotPdfL]
  · rw [pdfLinkOf_of_fromLink_ne hfl]
    exact hfl

/-- Witness for C10 at the entry whose only matching link has an empty href:
the fallback still produces a non-empty pdfLink. -/
theorem c10_scheme_pdflink_witness :
    (mkSummary entryShadowedLink "http://x/abs/1" "1").pdfLink ≠ "" :=
  c10_scheme_pdflink entryShadowedLink (mkSummary entryShadowedLink "http://x/abs/1" "1")
    "http://x/abs/1" (by decide) (by rfl) (Or.inl (by decide))
